import Mathlib

/-!
Shallow embedding of the core of src/batch_executor.py (class BatchExecutor):
the response-classifier helpers (extract_http_response_code,
extract_response_body, is_valid_http_code) and the execution loop
(run_batch_execution).  Text is modelled as List Char; the process runner
(execute_command, an external collaborator wrapping subprocess.run) is a
parameter of the loop.  Logging calls are dropped; the observable effects
kept are the two counters, the list of commands handed to the runner, the
number of inter-step delay invocations, the early-stop flag, and the value
reported as the total in the final summary.
-/

/-- Character class of the ASCII decimal digits 0-9, as matched by the
regex token for a digit on the ASCII text this program handles. -/
def isDigitChar (c : Char) : Bool := 48 ≤ c.toNat && c.toNat ≤ 57

/-- ASCII whitespace stripped by the Python str.strip method
(space, tab, newline, carriage return, vertical tab, form feed). -/
def isPySpace (c : Char) : Bool :=
  c.toNat = 32 || c.toNat = 9 || c.toNat = 10 || c.toNat = 13 ||
  c.toNat = 11 || c.toNat = 12

/-- Model of the Python str.strip method: remove leading and trailing
whitespace characters. -/
def pyStrip (s : List Char) : List Char :=
  ((s.dropWhile isPySpace).reverse.dropWhile isPySpace).reverse

/-- The literal the command is tested against:
command.strip().startswith("curl"). -/
def curlChars : List Char := "curl".toList

/-- The literal regex head: the pattern HTTP.*?(ddd) starts with this. -/
def httpChars : List Char := "HTTP".toList

/-- Model of the Python str.split on a newline: splits into lines, never
returns an empty list, keeps empty segments. -/
def splitNl : List Char → List (List Char)
  | [] => [[]]
  | c :: rest =>
    match splitNl rest with
    | [] => [[]]
    | l :: ls => if c = '\n' then [] :: l :: ls else (c :: l) :: ls

/-- Model of joining a list of lines with a newline separator, as the
Python join on the newline string does. -/
def joinNl : List (List Char) → List Char
  | [] => []
  | [l] => l
  | l :: ls => l ++ '\n' :: joinNl ls

/-- Loop of extract_response_body (src/batch_executor.py lines 171-174):
body_start is 0 unless some line strips to empty, in which case it is the
index of the first such line plus one. -/
def findBodyStart : List (List Char) → Nat → Nat
  | [], _ => 0
  | l :: ls, i => if pyStrip l = [] then i + 1 else findBodyStart ls (i + 1)

/-- Model of BatchExecutor.extract_response_body
(src/batch_executor.py lines 151-182).  The stderr argument is unused in
the source as well. -/
def extract_response_body (command stdout _stderr : List Char) : List Char :=
  if curlChars.isPrefixOf (pyStrip command) then
    let lines := splitNl stdout
    let body_start := findBodyStart lines 0
    if body_start < lines.length then
      pyStrip (joinNl (lines.drop body_start))
    else stdout
  else stdout

/-- Non-greedy tail of the regex HTTP.*?(ddd): after the literal HTTP has
been consumed, scan forward for the first position holding three
consecutive digits, failing on a newline (the dot of the Python regex does
not match a newline) or at the end of the text. -/
def scanForCode : List Char → Option (List Char)
  | c1 :: c2 :: c3 :: rest =>
    if isDigitChar c1 && isDigitChar c2 && isDigitChar c3 then some [c1, c2, c3]
    else if c1 = '\n' then none
    else scanForCode (c2 :: c3 :: rest)
  | _ => none

/-- Model of re.search with the pattern HTTP.*?(ddd): try each start
position left to right; a match needs the literal HTTP followed, with no
intervening newline, by three consecutive digits, which form the group
returned. -/
def searchHTTP : List Char → Option (List Char)
  | [] => none
  | c :: rest =>
    if httpChars.isPrefixOf (c :: rest) then
      match scanForCode ((c :: rest).drop 4) with
      | some code => some code
      | none => searchHTTP rest
    else searchHTTP rest

/-- Model of BatchExecutor.extract_http_response_code
(src/batch_executor.py lines 117-149): only for commands whose stripped
text starts with curl; search stderr first, then stdout. -/
def extract_http_response_code (command stdout stderr : List Char) :
    Option (List Char) :=
  if curlChars.isPrefixOf (pyStrip command) then
    match searchHTTP stderr with
    | some code => some code
    | none => searchHTTP stdout
  else none

/-- Numeric value of a list of decimal digit characters. -/
def digitsVal (l : List Char) : Nat :=
  l.foldl (fun a c => a * 10 + (c.toNat - 48)) 0

/-- Model of the Python int builtin applied to a string, as used in
is_valid_http_code: strip whitespace, allow one leading sign, then a
nonempty run of decimal digits; anything else raises ValueError, modelled
as none.  (CPython additionally accepts underscore separators between
digits; that case is not modelled and cannot arise for the three-digit
codes this program extracts.) -/
def pyInt (s : List Char) : Option Int :=
  match pyStrip s with
  | [] => none
  | c :: ds =>
    if c = '+' then
      if ds ≠ [] ∧ ds.all isDigitChar = true then some ((digitsVal ds : Nat) : Int)
      else none
    else if c = '-' then
      if ds ≠ [] ∧ ds.all isDigitChar = true then some (-((digitsVal ds : Nat) : Int))
      else none
    else if (c :: ds).all isDigitChar = true then some ((digitsVal (c :: ds) : Nat) : Int)
    else none

/-- Model of BatchExecutor.is_valid_http_code
(src/batch_executor.py lines 184-209).  The Python function returns
True, False or None; modelled as Option Bool.  none in, or a failing int
parse, gives none; 2xx gives some true; 4xx and 5xx give some false; every
other parsed value gives some true. -/
def is_valid_http_code (http_code : Option (List Char)) : Option Bool :=
  match http_code with
  | none => none
  | some s =>
    match pyInt s with
    | none => none
    | some code =>
      if 200 ≤ code ∧ code < 300 then some true
      else if 400 ≤ code ∧ code < 600 then some false
      else some true

/-- Model of BatchExecutor.replace_id_in_command
(src/batch_executor.py lines 89-91): the Python str.replace with the
fixed pattern of the four characters of the id placeholder, replacing
every occurrence left to right. -/
def replace_id_in_command : List Char → List Char → List Char
  | '<' :: 'i' :: 'd' :: '>' :: rest, idv => idv ++ replace_id_in_command rest idv
  | c :: rest, idv => c :: replace_id_in_command rest idv
  | [], _ => []

/-- Result of one invocation of the process runner (execute_command):
exit code and the two captured text streams. -/
structure ExecResult where
  exitCode : Int
  stdout : List Char
  stderr : List Char

/-- Truthiness of the optional extracted code, as tested by the Python
condition "self.verify_return and http_code": none and the empty string
are falsy. -/
def optTruthy : Option (List Char) → Bool
  | none => false
  | some s => !s.isEmpty

/-- Mutable state of the loop in run_batch_execution: the two counters,
plus the observables recorded for verification (commands handed to the
runner in order, delay invocations, whether the break on an HTTP error
was taken). -/
structure LoopState where
  successful : Nat
  failed : Nat
  executions : List (List Char)
  delays : Nat
  stopped : Bool
deriving DecidableEq

/-- Dry-run branch of one loop iteration (src/batch_executor.py lines
242-250): count the id as successful, skip execution, and still sleep
when another id remains (the source condition i < len(ids)). -/
def dryStep (i n : Nat) (st : LoopState) : LoopState :=
  { st with successful := st.successful + 1,
            delays := if i < n then st.delays + 1 else st.delays }

/-- Abort test for one identifier: the condition under which the
verify_return branch of the loop breaks, namely
"http_code and self.is_valid_http_code(http_code) is False"
(src/batch_executor.py lines 262-264), as a function of the runner, the
template and the identifier. -/
def classifiesError (runner : List Char → ExecResult)
    (template idv : List Char) : Bool :=
  let command := replace_id_in_command template idv
  let res := runner command
  let http_code := extract_http_response_code command res.stdout res.stderr
  optTruthy http_code && (is_valid_http_code http_code == some false)

/-- Execution branch of one loop iteration (src/batch_executor.py lines
252-302): run the command, extract the HTTP code, break when
verify_return is set and the code classifies as an HTTP error (modelled
by setting the stopped flag; the test is factored into classifiesError),
otherwise classify by exit code and sleep when another id remains (the
source condition i < len(ids)).  In the verify_return branch the source
logs a warning when the code cannot be validated and breaks only when
is_valid_http_code is False; only the break is observable here. -/
def execStep (vr : Bool) (runner : List Char → ExecResult)
    (template idv : List Char) (i n : Nat) (st : LoopState) : LoopState :=
  let command := replace_id_in_command template idv
  let res := runner command
  let st1 := { st with executions := st.executions ++ [command] }
  if vr && classifiesError runner template idv then
    { st1 with failed := st1.failed + 1, stopped := true }
  else
    let st2 :=
      if res.exitCode = 0 then { st1 with successful := st1.successful + 1 }
      else { st1 with failed := st1.failed + 1 }
    if i < n then { st2 with delays := st2.delays + 1 } else st2

/-- Loop of run_batch_execution (src/batch_executor.py lines 236-302),
one recursive step per id.  The index i is the 1-based position (Python
enumerate(ids, 1)) and n the loaded list length.  The break statement of
the source is modelled by the stopped flag set by execStep: the loop
returns as soon as it is set, and it is always entered with the flag
clear. -/
def processIds (vr dr : Bool) (runner : List Char → ExecResult)
    (template : List Char) (n : Nat) :
    List (List Char) → Nat → LoopState → LoopState
  | [], _, st => st
  | idv :: rest, i, st =>
    if dr then
      processIds vr dr runner template n rest (i + 1) (dryStep i n st)
    else
      let st1 := execStep vr runner template idv i n st
      if st1.stopped then st1
      else processIds vr dr runner template n rest (i + 1) st1

/-- Observable outcome of run_batch_execution: final counters, commands
executed, delay count, the total printed by the summary (none when the
summary block is never reached, which happens exactly on an empty id
list), and whether the loop stopped early. -/
structure RunResult where
  successful : Nat
  failed : Nat
  executions : List (List Char)
  delays : Nat
  summaryTotal : Option Nat
  stopped : Bool
deriving DecidableEq

/-- Initial loop state: both counters zero, nothing executed. -/
def initState : LoopState :=
  { successful := 0, failed := 0, executions := [], delays := 0, stopped := false }

/-- Model of BatchExecutor.run_batch_execution
(src/batch_executor.py lines 211-308) after the template and ids are
loaded: on an empty list return before the loop and the summary
(lines 228-230); otherwise run the loop and emit the summary, whose
printed total is len(ids), the loaded count (line 308). -/
def run_batch_execution (vr dr : Bool) (runner : List Char → ExecResult)
    (template : List Char) (ids : List (List Char)) : RunResult :=
  if ids.isEmpty then
    { successful := 0, failed := 0, executions := [], delays := 0,
      summaryTotal := none, stopped := false }
  else
    let final := processIds vr dr runner template ids.length ids 1 initState
    { successful := final.successful, failed := final.failed,
      executions := final.executions, delays := final.delays,
      summaryTotal := some ids.length, stopped := final.stopped }

/-- Concrete process runner for the stop-on-error scenario: the command
for id b answers with an HTTP 500 status line on stderr, every other
command exits 0 with empty output. -/
def exRunner1 (cmd : List Char) : ExecResult :=
  if cmd = ( "curl b".toList) then
    { exitCode := 0, stdout := [], stderr := "HTTP/1.1 500 Server Error".toList }
  else { exitCode := 0, stdout := [], stderr := [] }

/-- Concrete command template with one placeholder. -/
def exTemplate : List Char := "curl <id>".toList

/-- Concrete identifier list of length five. -/
def exIds5 : List (List Char) :=
  [ "a".toList, "b".toList, "c".toList, "d".toList, "e".toList]

theorem step_sum (vr : Bool) (runner : List Char → ExecResult)
    (template idv : List Char) (i n : Nat) (st : LoopState) :
    (execStep vr runner template idv i n st).successful +
      (execStep vr runner template idv i n st).failed =
      st.successful + st.failed + 1 := by
  simp only [execStep]
  split
  · simp; omega
  · split <;> split <;> simp <;> omega

theorem step_exec (vr : Bool) (runner : List Char → ExecResult)
    (template idv : List Char) (i n : Nat) (st : LoopState) :
    (execStep vr runner template idv i n st).executions =
      st.executions ++ [replace_id_in_command template idv] := by
  simp only [execStep]
  split
  · simp
  · split <;> split <;> simp

theorem step_stopped (vr : Bool) (runner : List Char → ExecResult)
    (template idv : List Char) (i n : Nat) (st : LoopState) :
    (execStep vr runner template idv i n st).stopped =
      (st.stopped || (vr && classifiesError runner template idv)) := by
  simp only [execStep]
  by_cases hc : (vr && classifiesError runner template idv) = true
  · simp [hc]
  · simp only [Bool.not_eq_true] at hc
    simp only [hc, Bool.false_eq_true, if_false, Bool.or_false]
    split <;> split <;> simp

theorem step_one_counter (vr : Bool) (runner : List Char → ExecResult)
    (template idv : List Char) (i n : Nat) (st : LoopState) :
    ((execStep vr runner template idv i n st).successful = st.successful + 1 ∧
      (execStep vr runner template idv i n st).failed = st.failed) ∨
    ((execStep vr runner template idv i n st).successful = st.successful ∧
      (execStep vr runner template idv i n st).failed = st.failed + 1) := by
  simp only [execStep]
  split
  · right; simp
  · split <;> split <;> simp

theorem step_delays (vr : Bool) (runner : List Char → ExecResult)
    (template idv : List Char) (i n : Nat) (st : LoopState) :
    (execStep vr runner template idv i n st).delays =
      if (vr && classifiesError runner template idv) = true then st.delays
      else if i < n then st.delays + 1 else st.delays := by
  simp only [execStep]
  by_cases hc : (vr && classifiesError runner template idv) = true
  · simp [hc]
  · simp only [Bool.not_eq_true] at hc
    simp only [hc, Bool.false_eq_true, if_false]
    split <;> split <;> simp

theorem loop_sum (vr dr : Bool) (runner : List Char → ExecResult)
    (template : List Char) (n : Nat) :
    ∀ (l : List (List Char)) (i : Nat) (st : LoopState),
      (processIds vr dr runner template n l i st).stopped = false →
      (processIds vr dr runner template n l i st).successful +
        (processIds vr dr runner template n l i st).failed =
        st.successful + st.failed + l.length := by
  intro l
  induction l with
  | nil => intro i st _; simp [processIds]
  | cons idv rest ih =>
    intro i st hstop
    simp only [processIds] at hstop ⊢
    cases dr with
    | true =>
      simp only [if_true] at hstop ⊢
      have h := ih (i + 1) (dryStep i n st) hstop
      simp only [dryStep] at h ⊢
      simp only [List.length_cons]
      omega
    | false =>
      simp only [Bool.false_eq_true, if_false] at hstop ⊢
      cases habort : (execStep vr runner template idv i n st).stopped with
      | true =>
        rw [if_pos habort] at hstop
        rw [habort] at hstop
        exact absurd hstop (by simp)
      | false =>
        rw [if_neg (by simp [habort])] at hstop ⊢
        have h := ih (i + 1) (execStep vr runner template idv i n st) hstop
        rw [h, step_sum]
        simp only [List.length_cons]
        omega

theorem loop_sum_le (vr dr : Bool) (runner : List Char → ExecResult)
    (template : List Char) (n : Nat) :
    ∀ (l : List (List Char)) (i : Nat) (st : LoopState),
      (processIds vr dr runner template n l i st).successful +
        (processIds vr dr runner template n l i st).failed ≤
        st.successful + st.failed + l.length := by
  intro l
  induction l with
  | nil => intro i st; simp [processIds]
  | cons idv rest ih =>
    intro i st
    simp only [processIds]
    cases dr with
    | true =>
      simp only [if_true]
      have h := ih (i + 1) (dryStep i n st)
      simp only [dryStep] at h ⊢
      simp only [List.length_cons]
      omega
    | false =>
      simp only [Bool.false_eq_true, if_false]
      cases habort : (execStep vr runner template idv i n st).stopped with
      | true =>
        rw [if_pos rfl]
        have h := step_sum vr runner template idv i n st
        simp only [List.length_cons]
        omega
      | false =>
        rw [if_neg (by simp)]
        have h := ih (i + 1) (execStep vr runner template idv i n st)
        have h2 := step_sum vr runner template idv i n st
        simp only [List.length_cons]
        omega

theorem loop_exec (vr : Bool) (runner : List Char → ExecResult)
    (template : List Char) (n : Nat) :
    ∀ (l : List (List Char)) (i : Nat) (st : LoopState),
      (processIds vr false runner template n l i st).executions.length +
        st.successful + st.failed =
        st.executions.length +
        (processIds vr false runner template n l i st).successful +
        (processIds vr false runner template n l i st).failed := by
  intro l
  induction l with
  | nil => intro i st; simp [processIds]
  | cons idv rest ih =>
    intro i st
    simp only [processIds, Bool.false_eq_true, if_false]
    cases habort : (execStep vr runner template idv i n st).stopped with
    | true =>
      rw [if_pos rfl]
      have h1 := step_sum vr runner template idv i n st
      have h2 := step_exec vr runner template idv i n st
      rw [h2]
      simp only [List.length_append, List.length_cons, List.length_nil]
      omega
    | false =>
      rw [if_neg (by simp)]
      have h := ih (i + 1) (execStep vr runner template idv i n st)
      have h1 := step_sum vr runner template idv i n st
      have h2 := step_exec vr runner template idv i n st
      rw [h2] at h
      simp only [List.length_append, List.length_cons, List.length_nil] at h
      omega

theorem loop_dry (vr : Bool) (runner : List Char → ExecResult)
    (template : List Char) (n : Nat) :
    ∀ (l : List (List Char)) (i : Nat) (st : LoopState),
      (processIds vr true runner template n l i st).successful =
        st.successful + l.length ∧
      (processIds vr true runner template n l i st).failed = st.failed ∧
      (processIds vr true runner template n l i st).executions = st.executions ∧
      (processIds vr true runner template n l i st).stopped = st.stopped := by
  intro l
  induction l with
  | nil => intro i st; simp [processIds]
  | cons idv rest ih =>
    intro i st
    simp only [processIds, if_true]
    have h := ih (i + 1) (dryStep i n st)
    simp only [dryStep] at h ⊢
    simp only [List.length_cons]
    obtain ⟨h1, h2, h3, h4⟩ := h
    refine ⟨?_, h2, h3, h4⟩
    omega

theorem dry_successful (i n : Nat) (st : LoopState) :
    (dryStep i n st).successful = st.successful + 1 := rfl

theorem dry_failed (i n : Nat) (st : LoopState) :
    (dryStep i n st).failed = st.failed := rfl

theorem dry_stopped (i n : Nat) (st : LoopState) :
    (dryStep i n st).stopped = st.stopped := rfl

theorem dry_delays (i n : Nat) (st : LoopState) :
    (dryStep i n st).delays = if i < n then st.delays + 1 else st.delays := rfl

theorem loop_delays (vr dr : Bool) (runner : List Char → ExecResult)
    (template : List Char) (n : Nat) :
    ∀ (l : List (List Char)) (i : Nat) (st : LoopState),
      st.stopped = false → l ≠ [] → i + l.length = n + 1 →
      (processIds vr dr runner template n l i st).delays + 1 +
        st.successful + st.failed =
        st.delays + (processIds vr dr runner template n l i st).successful +
        (processIds vr dr runner template n l i st).failed := by
  intro l
  induction l with
  | nil => intro i st _ hne _; exact absurd rfl hne
  | cons idv rest ih =>
    intro i st hstp _ hin
    simp only [List.length_cons] at hin
    simp only [processIds]
    cases dr with
    | true =>
      simp only [if_true]
      by_cases hlt : i < n
      · have hrne : rest ≠ [] := by
          intro hc
          rw [hc] at hin
          simp at hin
          omega
        have h := ih (i + 1) (dryStep i n st)
          (by rw [dry_stopped]; exact hstp) hrne (by omega)
        rw [dry_successful, dry_failed, dry_delays, if_pos hlt] at h
        omega
      · have hr0 : rest.length = 0 := by omega
        have hrnil : rest = [] := List.length_eq_zero.mp hr0
        subst hrnil
        simp only [processIds]
        rw [dry_successful, dry_failed, dry_delays, if_neg hlt]
        omega
    | false =>
      simp only [Bool.false_eq_true, if_false]
      cases habort : (execStep vr runner template idv i n st).stopped with
      | true =>
        rw [if_pos rfl]
        have hc : (vr && classifiesError runner template idv) = true := by
          have h := step_stopped vr runner template idv i n st
          rw [habort, hstp] at h
          simpa using h.symm
        have hd := step_delays vr runner template idv i n st
        rw [if_pos hc] at hd
        have hs := step_sum vr runner template idv i n st
        omega
      | false =>
        rw [if_neg (by simp)]
        have hcf : (vr && classifiesError runner template idv) = false := by
          have h := step_stopped vr runner template idv i n st
          rw [habort, hstp] at h
          simpa using h.symm
        have hd := step_delays vr runner template idv i n st
        simp only [hcf, Bool.false_eq_true, if_false] at hd
        have hs := step_sum vr runner template idv i n st
        by_cases hlt : i < n
        · have hrne : rest ≠ [] := by
            intro hc2
            rw [hc2] at hin
            simp at hin
            omega
          have h := ih (i + 1) (execStep vr runner template idv i n st)
            habort hrne (by omega)
          rw [if_pos hlt] at hd
          omega
        · have hr0 : rest.length = 0 := by omega
          have hrnil : rest = [] := List.length_eq_zero.mp hr0
          subst hrnil
          simp only [processIds]
          rw [if_neg hlt] at hd
          omega

theorem loop_stop_source (vr dr : Bool) (runner : List Char → ExecResult)
    (template : List Char) (n : Nat) :
    ∀ (l : List (List Char)) (i : Nat) (st : LoopState),
      st.stopped = false →
      (processIds vr dr runner template n l i st).stopped = true →
      vr = true ∧ dr = false ∧
        ∃ idv, idv ∈ l ∧ classifiesError runner template idv = true := by
  intro l
  induction l with
  | nil =>
    intro i st hstp h
    simp only [processIds] at h
    rw [h] at hstp
    cases hstp
  | cons idv rest ih =>
    intro i st hstp h
    simp only [processIds] at h
    cases dr with
    | true =>
      simp only [if_true] at h
      have hd := (loop_dry vr runner template n rest (i + 1) (dryStep i n st)).2.2.2
      rw [hd, dry_stopped, hstp] at h
      cases h
    | false =>
      simp only [Bool.false_eq_true, if_false] at h
      cases habort : (execStep vr runner template idv i n st).stopped with
      | true =>
        have hc : (vr && classifiesError runner template idv) = true := by
          have h2 := step_stopped vr runner template idv i n st
          rw [habort, hstp] at h2
          simpa using h2.symm
        rw [Bool.and_eq_true] at hc
        exact ⟨hc.1, rfl, idv, List.mem_cons_self _ _, hc.2⟩
      | false =>
        rw [if_neg (by simp [habort])] at h
        obtain ⟨hvr, _, idv2, hmem, hcE⟩ :=
          ih (i + 1) (execStep vr runner template idv i n st) habort h
        exact ⟨hvr, rfl, idv2, List.mem_cons_of_mem _ hmem, hcE⟩

theorem splitNl_ne_nil (s : List Char) : splitNl s ≠ [] := by
  induction s with
  | nil => simp [splitNl]
  | cons c rest ih =>
    simp only [splitNl]
    split
    · simp
    · split <;> simp

theorem joinNl_splitNl (s : List Char) : joinNl (splitNl s) = s := by
  induction s with
  | nil => rfl
  | cons c rest ih =>
    simp only [splitNl]
    split
    · rename_i heq
      exact absurd heq (splitNl_ne_nil rest)
    · rename_i l ls heq
      rw [heq] at ih
      by_cases hc : c = '\n'
      · rw [if_pos hc, hc]
        simp only [joinNl]
        rw [ih]
        simp
      · rw [if_neg hc]
        cases ls with
        | nil =>
          simp only [joinNl] at ih ⊢
          rw [ih]
        | cons l2 ls2 =>
          simp only [joinNl] at ih ⊢
          rw [List.cons_append, ih]


theorem findBodyStart_none (ls : List (List Char)) :
    ∀ (i : Nat), (∀ l ∈ ls, pyStrip l ≠ []) → findBodyStart ls i = 0 := by
  induction ls with
  | nil => intro i _; rfl
  | cons l ls2 ih =>
    intro i hall
    simp only [findBodyStart]
    rw [if_neg (hall l (List.mem_cons_self _ _))]
    exact ih (i + 1) (fun x hx => hall x (List.mem_cons_of_mem _ hx))

theorem findBodyStart_found (pre : List (List Char)) (bl : List Char)
    (post : List (List Char)) :
    ∀ (i : Nat), (∀ l ∈ pre, pyStrip l ≠ []) → pyStrip bl = [] →
    findBodyStart (pre ++ bl :: post) i = i + pre.length + 1 := by
  induction pre with
  | nil =>
    intro i _ hbl
    simp only [List.nil_append, findBodyStart]
    rw [if_pos hbl]
    simp
  | cons p pre2 ih =>
    intro i hall hbl
    simp only [List.cons_append, findBodyStart]
    rw [if_neg (hall p (List.mem_cons_self _ _))]
    simp only [List.append_eq]
    rw [ih (i + 1) (fun x hx => hall x (List.mem_cons_of_mem _ hx)) hbl]
    simp only [List.length_cons]
    omega

theorem drop_after (pre : List (List Char)) (bl : List Char)
    (post : List (List Char)) :
    (pre ++ bl :: post).drop (pre.length + 1) = post := by
  induction pre with
  | nil => simp
  | cons p pre2 ih =>
    simp only [List.cons_append, List.length_cons, List.drop_succ_cons]
    exact ih

theorem isPre_exists (p : List Char) :
    ∀ (s : List Char), p.isPrefixOf s = true → ∃ t, s = p ++ t := by
  induction p with
  | nil => intro s _; exact ⟨s, rfl⟩
  | cons a p2 ih =>
    intro s h
    cases s with
    | nil => simp [List.isPrefixOf] at h
    | cons b s2 =>
      simp only [List.isPrefixOf, Bool.and_eq_true] at h
      obtain ⟨hab, hps⟩ := h
      have hab2 : a = b := by simpa using hab
      subst hab2
      obtain ⟨t, ht⟩ := ih s2 hps
      exact ⟨t, by rw [ht, List.cons_append]⟩

theorem isPre_append (p t : List Char) : p.isPrefixOf (p ++ t) = true := by
  induction p with
  | nil => simp [List.isPrefixOf]
  | cons a p2 ih => simp [List.isPrefixOf, ih]

theorem length_three (c : List Char) (h : c.length = 3) :
    ∃ d1 d2 d3, c = [d1, d2, d3] := by
  cases c with
  | nil => simp at h
  | cons d1 c1 =>
    cases c1 with
    | nil => simp at h
    | cons d2 c2 =>
      cases c2 with
      | nil => simp at h
      | cons d3 c3 =>
        cases c3 with
        | nil => exact ⟨d1, d2, d3, rfl⟩
        | cons d4 c4 => simp only [List.length_cons] at h; omega

theorem all_three (a b c : Char) :
    [a, b, c].all isDigitChar = (isDigitChar a && isDigitChar b && isDigitChar c) := by
  simp [List.all_cons, Bool.and_assoc]

theorem scanForCode_sound :
    ∀ (t c : List Char), scanForCode t = some c →
      c.length = 3 ∧ c.all isDigitChar = true ∧
      ∃ mid post, t = mid ++ c ++ post ∧ ∀ ch ∈ mid, ch ≠ '\n' := by
  intro t
  induction t with
  | nil => intro c h; simp [scanForCode] at h
  | cons c1 t1 ih =>
    intro c h
    cases ht1 : t1 with
    | nil => rw [ht1] at h; simp [scanForCode] at h
    | cons c2 t2 =>
      subst ht1
      cases ht2 : t2 with
      | nil => rw [ht2] at h; simp [scanForCode] at h
      | cons c3 rest =>
        subst ht2
        simp only [scanForCode] at h
        split at h
        · rename_i hdig
          injection h with h2
          subst h2
          refine ⟨rfl, by rw [all_three]; exact hdig, [], rest, by simp, by simp⟩
        · split at h
          · cases h
          · rename_i hdig hnl
            obtain ⟨h1, h2, mid, post, heq, hmid⟩ := ih c h
            refine ⟨h1, h2, c1 :: mid, post, ?_, ?_⟩
            · rw [show c1 :: c2 :: c3 :: rest = c1 :: (mid ++ c ++ post) from by rw [heq]]
              simp only [List.cons_append]
            · intro ch hch
              rcases List.mem_cons.mp hch with hch | hch
              · rw [hch]; exact hnl
              · exact hmid ch hch

theorem scanForCode_none :
    ∀ (t : List Char), scanForCode t = none →
      ∀ (mid c post : List Char), t = mid ++ c ++ post →
      (∀ ch ∈ mid, ch ≠ '\n') → c.length = 3 → c.all isDigitChar = true →
      False := by
  intro t
  induction t with
  | nil =>
    intro _ mid c post heq _ hlen _
    have hl := congrArg List.length heq
    simp only [List.length_append, List.length_nil] at hl
    omega
  | cons c1 t1 ih =>
    intro h mid c post heq hmid hlen hdig
    cases ht1 : t1 with
    | nil =>
      rw [ht1] at heq
      have hl := congrArg List.length heq
      simp only [List.length_append, List.length_cons, List.length_nil] at hl
      omega
    | cons c2 t2 =>
      subst ht1
      cases ht2 : t2 with
      | nil =>
        rw [ht2] at heq
        have hl := congrArg List.length heq
        simp only [List.length_append, List.length_cons, List.length_nil] at hl
        omega
      | cons c3 rest =>
        subst ht2
        simp only [scanForCode] at h
        split at h
        · cases h
        · rename_i hdig3
          split at h
          · rename_i hnl
            cases mid with
            | nil =>
              obtain ⟨d1, d2, d3, hc⟩ := length_three c hlen
              subst hc
              simp only [List.nil_append, List.cons_append, List.cons.injEq] at heq
              obtain ⟨h1, h2, h3, _⟩ := heq
              subst h1; subst h2; subst h3
              rw [all_three] at hdig
              exact hdig3 hdig
            | cons m mid2 =>
              simp only [List.cons_append, List.cons.injEq] at heq
              exact hmid m (List.mem_cons_self _ _) (heq.1 ▸ hnl)
          · rename_i hnl
            cases mid with
            | nil =>
              obtain ⟨d1, d2, d3, hc⟩ := length_three c hlen
              subst hc
              simp only [List.nil_append, List.cons_append, List.cons.injEq] at heq
              obtain ⟨h1, h2, h3, _⟩ := heq
              subst h1; subst h2; subst h3
              rw [all_three] at hdig
              exact hdig3 hdig
            | cons m mid2 =>
              simp only [List.cons_append, List.cons.injEq] at heq
              exact ih h mid2 c post heq.2
                (fun x hx => hmid x (List.mem_cons_of_mem _ hx)) hlen hdig

theorem searchHTTP_sound :
    ∀ (s c : List Char), searchHTTP s = some c →
      c.length = 3 ∧ c.all isDigitChar = true ∧
      ∃ pre mid post, s = pre ++ httpChars ++ mid ++ c ++ post ∧
        ∀ ch ∈ mid, ch ≠ '\n' := by
  intro s
  induction s with
  | nil => intro c h; simp [searchHTTP] at h
  | cons ch0 rest ih =>
    intro c h
    simp only [searchHTTP] at h
    split at h
    · rename_i hpre
      split at h
      · rename_i code hscan
        injection h with h2
        subst h2
        obtain ⟨h1, h2, mid, post, heq, hmid⟩ := scanForCode_sound _ _ hscan
        obtain ⟨t, ht⟩ := isPre_exists httpChars (ch0 :: rest) hpre
        have hd : (ch0 :: rest).drop 4 = t := by
          rw [ht]
          exact List.drop_left httpChars t
        rw [hd] at heq
        refine ⟨h1, h2, [], mid, post, ?_, hmid⟩
        rw [List.nil_append, ht, heq]
        simp [List.append_assoc]
      · rename_i hscan
        obtain ⟨h1, h2, pre, mid, post, heq, hmid⟩ := ih c h
        exact ⟨h1, h2, ch0 :: pre, mid, post,
          by rw [heq]; simp only [List.cons_append], hmid⟩
    · rename_i hpre
      obtain ⟨h1, h2, pre, mid, post, heq, hmid⟩ := ih c h
      exact ⟨h1, h2, ch0 :: pre, mid, post,
        by rw [heq]; simp only [List.cons_append], hmid⟩

theorem searchHTTP_none :
    ∀ (s : List Char), searchHTTP s = none →
      ∀ (pre mid c post : List Char),
        s = pre ++ httpChars ++ mid ++ c ++ post →
        (∀ ch ∈ mid, ch ≠ '\n') → c.length = 3 → c.all isDigitChar = true →
        False := by
  intro s
  induction s with
  | nil =>
    intro _ pre mid c post heq _ hlen _
    have hl := congrArg List.length heq
    have hh : httpChars.length = 4 := rfl
    simp only [List.length_append, List.length_nil] at hl
    omega
  | cons ch0 rest ih =>
    intro h pre mid c post heq hmid hlen hdig
    simp only [searchHTTP] at h
    split at h
    · rename_i hpre
      split at h
      · cases h
      · rename_i hscan
        cases pre with
        | nil =>
          have hd : (ch0 :: rest).drop 4 = mid ++ c ++ post := by
            rw [heq]
            simp only [List.nil_append]
            rw [List.append_assoc, List.append_assoc]
            rw [show (4 : Nat) = httpChars.length from rfl]
            rw [List.drop_left httpChars (mid ++ (c ++ post))]
            rw [← List.append_assoc]
          exact scanForCode_none _ hscan mid c post hd hmid hlen hdig
        | cons p0 pre2 =>
          simp only [List.cons_append, List.cons.injEq] at heq
          exact ih h pre2 mid c post heq.2 hmid hlen hdig
    · rename_i hpre
      cases pre with
      | nil =>
        have hp : httpChars.isPrefixOf (ch0 :: rest) = true := by
          rw [heq]
          simp only [List.nil_append]
          rw [List.append_assoc, List.append_assoc]
          exact isPre_append httpChars (mid ++ (c ++ post))
        exact hpre hp
      | cons p0 pre2 =>
        simp only [List.cons_append, List.cons.injEq] at heq
        exact ih h pre2 mid c post heq.2 hmid hlen hdig

theorem scanForCode_min :
    ∀ (t c : List Char), scanForCode t = some c →
      ∃ mid post, t = mid ++ c ++ post ∧ (∀ ch ∈ mid, ch ≠ '\n') ∧
        ∀ (mid2 c2 post2 : List Char), t = mid2 ++ c2 ++ post2 →
          c2.length = 3 → c2.all isDigitChar = true →
          mid.length ≤ mid2.length := by
  intro t
  induction t with
  | nil => intro c h; simp [scanForCode] at h
  | cons c1 t1 ih =>
    intro c h
    cases ht1 : t1 with
    | nil => rw [ht1] at h; simp [scanForCode] at h
    | cons c2 t2 =>
      subst ht1
      cases ht2 : t2 with
      | nil => rw [ht2] at h; simp [scanForCode] at h
      | cons c3 rest =>
        subst ht2
        simp only [scanForCode] at h
        split at h
        · rename_i hdig
          injection h with h2
          subst h2
          refine ⟨[], rest, by simp, by simp, ?_⟩
          intro mid2 c2x post2 _ _ _
          simp
        · split at h
          · cases h
          · rename_i hdig hnl
            obtain ⟨mid1, post, heq, hmid, hmin⟩ := ih c h
            refine ⟨c1 :: mid1, post, ?_, ?_, ?_⟩
            · rw [show c1 :: c2 :: c3 :: rest = c1 :: (mid1 ++ c ++ post) from
                by rw [heq]]
              simp only [List.cons_append]
            · intro ch hch
              rcases List.mem_cons.mp hch with hch | hch
              · rw [hch]; exact hnl
              · exact hmid ch hch
            · intro mid2 c2x post2 heq2 hlen2 hdig2
              cases mid2 with
              | nil =>
                obtain ⟨d1, d2, d3, hc⟩ := length_three c2x hlen2
                subst hc
                simp only [List.nil_append, List.cons_append,
                  List.cons.injEq] at heq2
                obtain ⟨h1, h2, h3, _⟩ := heq2
                subst h1; subst h2; subst h3
                rw [all_three] at hdig2
                exact absurd hdig2 hdig
              | cons m mid3 =>
                simp only [List.cons_append, List.cons.injEq] at heq2
                have h4 := hmin mid3 c2x post2 heq2.2 hlen2 hdig2
                simp only [List.length_cons]
                omega

theorem searchHTTP_min :
    ∀ (s c : List Char), searchHTTP s = some c →
      ∃ pre mid post, s = pre ++ httpChars ++ mid ++ c ++ post ∧
        (∀ ch ∈ mid, ch ≠ '\n') ∧
        ∀ (pre2 mid2 c2 post2 : List Char),
          s = pre2 ++ httpChars ++ mid2 ++ c2 ++ post2 →
          (∀ ch ∈ mid2, ch ≠ '\n') → c2.length = 3 →
          c2.all isDigitChar = true →
          pre.length ≤ pre2.length ∧
          (pre.length = pre2.length → mid.length ≤ mid2.length) := by
  intro s
  induction s with
  | nil => intro c h; simp [searchHTTP] at h
  | cons ch0 rest ih =>
    intro c h
    simp only [searchHTTP] at h
    split at h
    · rename_i hpre
      obtain ⟨t, ht⟩ := isPre_exists httpChars (ch0 :: rest) hpre
      have hd : (ch0 :: rest).drop 4 = t := by
        rw [ht]
        exact List.drop_left httpChars t
      split at h
      · rename_i code hscan
        injection h with h2
        subst h2
        rw [hd] at hscan
        obtain ⟨mid, post, heq, hmid, hmin⟩ := scanForCode_min _ _ hscan
        refine ⟨[], mid, post, ?_, hmid, ?_⟩
        · rw [List.nil_append, ht, heq]
          simp [List.append_assoc]
        · intro pre2 mid2 c2 post2 heq2 hmid2 hlen2 hdig2
          refine ⟨by simp, ?_⟩
          intro hpl
          have hp2 : pre2 = [] := by
            cases pre2 with
            | nil => rfl
            | cons a b => simp at hpl
          subst hp2
          rw [List.nil_append] at heq2
          have h5 := congrArg (List.drop 4) heq2
          rw [hd] at h5
          rw [List.append_assoc, List.append_assoc] at h5
          rw [show (4 : Nat) = httpChars.length from rfl] at h5
          rw [List.drop_left] at h5
          rw [← List.append_assoc] at h5
          exact hmin mid2 c2 post2 h5 hlen2 hdig2
      · rename_i hscan
        rw [hd] at hscan
        obtain ⟨pre1, mid, post, heq, hmid, hmin⟩ := ih c h
        refine ⟨ch0 :: pre1, mid, post,
          by rw [heq]; simp only [List.cons_append], hmid, ?_⟩
        intro pre2 mid2 c2 post2 heq2 hmid2 hlen2 hdig2
        cases pre2 with
        | nil =>
          exfalso
          rw [List.nil_append] at heq2
          have h5 := congrArg (List.drop 4) heq2
          rw [hd] at h5
          rw [List.append_assoc, List.append_assoc] at h5
          rw [show (4 : Nat) = httpChars.length from rfl] at h5
          rw [List.drop_left] at h5
          rw [← List.append_assoc] at h5
          exact scanForCode_none t hscan mid2 c2 post2 h5 hmid2 hlen2 hdig2
        | cons p0 pre3 =>
          simp only [List.cons_append, List.cons.injEq] at heq2
          have h4 := hmin pre3 mid2 c2 post2 heq2.2 hmid2 hlen2 hdig2
          refine ⟨?_, ?_⟩
          · simp only [List.length_cons]; omega
          · simp only [List.length_cons]
            intro hl
            exact h4.2 (by omega)
    · rename_i hpre
      obtain ⟨pre1, mid, post, heq, hmid, hmin⟩ := ih c h
      refine ⟨ch0 :: pre1, mid, post,
        by rw [heq]; simp only [List.cons_append], hmid, ?_⟩
      intro pre2 mid2 c2 post2 heq2 hmid2 hlen2 hdig2
      cases pre2 with
      | nil =>
        exfalso
        apply hpre
        rw [heq2]
        simp only [List.nil_append]
        rw [List.append_assoc, List.append_assoc]
        exact isPre_append httpChars (mid2 ++ (c2 ++ post2))
      | cons p0 pre3 =>
        simp only [List.cons_append, List.cons.injEq] at heq2
        have h4 := hmin pre3 mid2 c2 post2 heq2.2 hmid2 hlen2 hdig2
        refine ⟨?_, ?_⟩
        · simp only [List.length_cons]; omega
        · simp only [List.length_cons]
          intro hl
          exact h4.2 (by omega)

theorem digit_not_space (ch : Char) (h : isDigitChar ch = true) :
    isPySpace ch = false := by
  simp only [isDigitChar, Bool.and_eq_true, decide_eq_true_eq] at h
  simp only [isPySpace, Bool.or_eq_false_iff, decide_eq_false_iff_not]
  omega

theorem dropWhile_no_space (l : List Char)
    (h : ∀ ch ∈ l, isPySpace ch = false) :
    l.dropWhile isPySpace = l := by
  cases l with
  | nil => rfl
  | cons a t =>
    rw [List.dropWhile_cons, h a (List.mem_cons_self _ _)]
    simp

theorem pyStrip_id (l : List Char) (h : ∀ ch ∈ l, isPySpace ch = false) :
    pyStrip l = l := by
  unfold pyStrip
  rw [dropWhile_no_space l h]
  rw [dropWhile_no_space l.reverse
    (fun ch hch => h ch (List.mem_reverse.mp hch))]
  exact List.reverse_reverse l

theorem pyInt_digits (l : List Char) (hne : l ≠ [])
    (h : l.all isDigitChar = true) :
    pyInt l = some ((digitsVal l : Nat) : Int) := by
  have hns : ∀ ch ∈ l, isPySpace ch = false := by
    intro ch hch
    exact digit_not_space ch (List.all_eq_true.mp h ch hch)
  cases l with
  | nil => exact absurd rfl hne
  | cons c ds =>
    have hcd : isDigitChar c = true :=
      List.all_eq_true.mp h c (List.mem_cons_self _ _)
    have hplus : ¬ c = '+' := by
      intro hc; rw [hc] at hcd; exact absurd hcd (by decide)
    have hminus : ¬ c = '-' := by
      intro hc; rw [hc] at hcd; exact absurd hcd (by decide)
    have hstrip : pyStrip (c :: ds) = c :: ds := pyStrip_id _ hns
    simp only [pyInt, hstrip]
    rw [if_neg hplus, if_neg hminus, if_pos h]

theorem run_eq (vr dr : Bool) (runner : List Char → ExecResult)
    (template : List Char) (ids : List (List Char)) (hne : ids ≠ []) :
    run_batch_execution vr dr runner template ids =
      { successful := (processIds vr dr runner template ids.length ids 1 initState).successful,
        failed := (processIds vr dr runner template ids.length ids 1 initState).failed,
        executions := (processIds vr dr runner template ids.length ids 1 initState).executions,
        delays := (processIds vr dr runner template ids.length ids 1 initState).delays,
        summaryTotal := some ids.length,
        stopped := (processIds vr dr runner template ids.length ids 1 initState).stopped } := by
  have hni : ¬ ids.isEmpty = true := by
    simp only [List.isEmpty_iff]
    exact hne
  simp only [run_batch_execution]
  rw [if_neg hni]

/-- Claim C1 as stated is false: in a stop-on-error run over five identifiers aborted at the second, the summary reports total 5 (the loaded count), while only 2 identifiers were attempted (1 success plus 1 failure). -/
theorem C1_counterexample :
    (run_batch_execution true false exRunner1 exTemplate exIds5).stopped = true ∧
    (run_batch_execution true false exRunner1 exTemplate exIds5).successful +
      (run_batch_execution true false exRunner1 exTemplate exIds5).failed = 2 ∧
    (run_batch_execution true false exRunner1 exTemplate exIds5).summaryTotal = some 5 ∧
    (run_batch_execution true false exRunner1 exTemplate exIds5).summaryTotal ≠
      some ((run_batch_execution true false exRunner1 exTemplate exIds5).successful +
        (run_batch_execution true false exRunner1 exTemplate exIds5).failed) := by
  decide

/-- Claim C1 (amended): for every run that starts the loop, the final summary reports the loop counters together with the number of identifiers loaded as the total; this total equals successes plus failures when the loop was not aborted early. -/
theorem C1_amended_summary_totals (vr dr : Bool) (runner : List Char → ExecResult)
    (template : List Char) (ids : List (List Char)) (hne : ids ≠ []) :
    (run_batch_execution vr dr runner template ids).summaryTotal = some ids.length ∧
    ((run_batch_execution vr dr runner template ids).stopped = false →
      ids.length = (run_batch_execution vr dr runner template ids).successful +
        (run_batch_execution vr dr runner template ids).failed) := by
  rw [run_eq vr dr runner template ids hne]
  constructor
  · rfl
  · intro hstop
    have h := loop_sum vr dr runner template ids.length ids 1 initState hstop
    simpa [initState] using h.symm

/-- Claim C2: with verify_return set, an identifier whose execution yields a status code classifying as an HTTP error makes the loop increment the failure counter once, record that one execution, and stop immediately; the stopped flag can only arise this way (verify_return set, dry_run clear, some processed identifier classifying as error); and in the concrete five-identifier scenario with an error on the second, exactly two executions happen with one success and one failure, and identifiers three to five are never executed. -/
theorem C2_stop_on_http_error :
    (∀ (runner : List Char → ExecResult) (template idv : List Char)
       (rest : List (List Char)) (n i : Nat) (st : LoopState),
       classifiesError runner template idv = true →
       processIds true false runner template n (idv :: rest) i st =
         { successful := st.successful, failed := st.failed + 1,
           executions := st.executions ++ [replace_id_in_command template idv],
           delays := st.delays, stopped := true }) ∧
    (∀ (vr dr : Bool) (runner : List Char → ExecResult) (template : List Char)
       (n : Nat) (l : List (List Char)) (i : Nat) (st : LoopState),
       st.stopped = false →
       (processIds vr dr runner template n l i st).stopped = true →
       vr = true ∧ dr = false ∧
         ∃ idv, idv ∈ l ∧ classifiesError runner template idv = true) ∧
    run_batch_execution true false exRunner1 exTemplate exIds5 =
      { successful := 1, failed := 1,
        executions := [ "curl a".toList, "curl b".toList],
        delays := 1, summaryTotal := some 5, stopped := true } := by
  refine ⟨?_, ?_, by decide⟩
  · intro runner template idv rest n i st hcE
    simp only [processIds, Bool.false_eq_true, if_false]
    have hstep : execStep true runner template idv i n st =
        { successful := st.successful, failed := st.failed + 1,
          executions := st.executions ++ [replace_id_in_command template idv],
          delays := st.delays, stopped := true } := by
      simp [execStep, hcE]
    rw [hstep]
    simp
  · intro vr dr runner template n l i st hstp h
    exact loop_stop_source vr dr runner template n l i st hstp h

/-- Claim C6: a run that is not stopped early sleeps exactly length minus one times, zero times for at most one identifier; and in every nonempty run the delay count is one less than the number of identifiers processed, so no delay follows the last processed identifier or an early stop. -/
theorem C6_delay_invocations :
    (∀ (vr dr : Bool) (runner : List Char → ExecResult) (template : List Char)
       (ids : List (List Char)),
       (run_batch_execution vr dr runner template ids).stopped = false →
       (run_batch_execution vr dr runner template ids).delays = ids.length - 1) ∧
    (∀ (vr dr : Bool) (runner : List Char → ExecResult) (template : List Char)
       (ids : List (List Char)), ids.length ≤ 1 →
       (run_batch_execution vr dr runner template ids).delays = 0) ∧
    (∀ (vr dr : Bool) (runner : List Char → ExecResult) (template : List Char)
       (ids : List (List Char)), ids ≠ [] →
       (run_batch_execution vr dr runner template ids).delays + 1 =
         (run_batch_execution vr dr runner template ids).successful +
         (run_batch_execution vr dr runner template ids).failed) := by
  refine ⟨?_, ?_, ?_⟩
  · intro vr dr runner template ids hstop
    by_cases hne : ids = []
    · subst hne; rfl
    · rw [run_eq vr dr runner template ids hne] at hstop ⊢
      have h1 := loop_sum vr dr runner template ids.length ids 1 initState hstop
      have h2 := loop_delays vr dr runner template ids.length ids 1 initState
        rfl hne (by omega)
      simp only [initState] at h1 h2 ⊢
      omega
  · intro vr dr runner template ids hlen
    by_cases hne : ids = []
    · subst hne; rfl
    · rw [run_eq vr dr runner template ids hne]
      have h1 := loop_sum_le vr dr runner template ids.length ids 1 initState
      have h2 := loop_delays vr dr runner template ids.length ids 1 initState
        rfl hne (by omega)
      simp only [initState] at h1 h2 ⊢
      omega
  · intro vr dr runner template ids hne
    rw [run_eq vr dr runner template ids hne]
    have h2 := loop_delays vr dr runner template ids.length ids 1 initState
      rfl hne (by omega)
    simp only [initState] at h2 ⊢
    omega

/-- Claim C7: a dry run never invokes the process runner, counts every identifier as successful with zero failures, and still sleeps between consecutive identifiers, length minus one times. -/
theorem C7_dry_run (vr : Bool) (runner : List Char → ExecResult)
    (template : List Char) (ids : List (List Char)) :
    (run_batch_execution vr true runner template ids).executions = [] ∧
    (run_batch_execution vr true runner template ids).successful = ids.length ∧
    (run_batch_execution vr true runner template ids).failed = 0 ∧
    (run_batch_execution vr true runner template ids).delays = ids.length - 1 := by
  by_cases hne : ids = []
  · subst hne; exact ⟨rfl, rfl, rfl, rfl⟩
  · rw [run_eq vr true runner template ids hne]
    obtain ⟨h1, h2, h3, h4⟩ := loop_dry vr runner template ids.length ids 1 initState
    have h5 := loop_delays vr true runner template ids.length ids 1 initState
      rfl hne (by omega)
    simp only [initState] at h1 h2 h3 h5 ⊢
    exact ⟨h3, by omega, h2, by omega⟩

/-- Claim C8: an empty identifier list returns immediately with no executions, no successes, no failures, no delays, and no summary emitted. -/
theorem C8_empty_identifier_list (vr dr : Bool) (runner : List Char → ExecResult)
    (template : List Char) :
    run_batch_execution vr dr runner template [] =
      { successful := 0, failed := 0, executions := [], delays := 0,
        summaryTotal := none, stopped := false } := rfl

/-- Claim C10: every completed loop iteration increments exactly one of the two counters by one; a run that is not stopped early ends with successes plus failures equal to the list length; and in non-dry runs successes plus failures always equals the number of runner invocations. -/
theorem C10_counter_invariant :
    (∀ (vr dr : Bool) (runner : List Char → ExecResult)
       (template idv : List Char) (rest : List (List Char)) (n i : Nat)
       (st : LoopState), st.stopped = false →
       ∃ st1 : LoopState,
         ((st1.successful = st.successful + 1 ∧ st1.failed = st.failed) ∨
          (st1.successful = st.successful ∧ st1.failed = st.failed + 1)) ∧
         processIds vr dr runner template n (idv :: rest) i st =
           (if st1.stopped = true then st1
            else processIds vr dr runner template n rest (i + 1) st1)) ∧
    (∀ (vr dr : Bool) (runner : List Char → ExecResult) (template : List Char)
       (ids : List (List Char)),
       (run_batch_execution vr dr runner template ids).stopped = false →
       (run_batch_execution vr dr runner template ids).successful +
         (run_batch_execution vr dr runner template ids).failed = ids.length) ∧
    (∀ (vr : Bool) (runner : List Char → ExecResult) (template : List Char)
       (ids : List (List Char)),
       (run_batch_execution vr false runner template ids).successful +
         (run_batch_execution vr false runner template ids).failed =
         (run_batch_execution vr false runner template ids).executions.length) := by
  refine ⟨?_, ?_, ?_⟩
  · intro vr dr runner template idv rest n i st hstp
    cases dr with
    | true =>
      refine ⟨dryStep i n st, Or.inl ⟨rfl, rfl⟩, ?_⟩
      simp only [processIds, if_true]
      rw [dry_stopped, hstp]
      rw [if_neg (by simp)]
    | false =>
      refine ⟨execStep vr runner template idv i n st,
        step_one_counter vr runner template idv i n st, ?_⟩
      simp only [processIds, Bool.false_eq_true, if_false]
  · intro vr dr runner template ids hstop
    by_cases hne : ids = []
    · subst hne; rfl
    · rw [run_eq vr dr runner template ids hne] at hstop ⊢
      have h := loop_sum vr dr runner template ids.length ids 1 initState hstop
      simpa [initState] using h
  · intro vr runner template ids
    by_cases hne : ids = []
    · subst hne; rfl
    · rw [run_eq vr false runner template ids hne]
      have h := loop_exec vr runner template ids.length ids 1 initState
      simp only [initState, List.length_nil] at h ⊢
      omega

/-- Claim C5: an absent code is indeterminate; parsed values in 200-299 classify as success, 400-599 as error, and every other parsed value as success. -/
theorem C5_classify_status :
    is_valid_http_code none = none ∧
    ∀ (s : List Char) (v : Int), pyInt s = some v →
      (200 ≤ v ∧ v < 300 → is_valid_http_code (some s) = some true) ∧
      (400 ≤ v ∧ v < 600 → is_valid_http_code (some s) = some false) ∧
      (¬(200 ≤ v ∧ v < 300) → ¬(400 ≤ v ∧ v < 600) →
        is_valid_http_code (some s) = some true) := by
  refine ⟨rfl, ?_⟩
  intro s v h
  simp only [is_valid_http_code, h]
  refine ⟨?_, ?_, ?_⟩
  · intro hr; rw [if_pos hr]
  · intro hr; rw [if_neg (by omega), if_pos hr]
  · intro h1 h2; rw [if_neg h1, if_neg h2]

/-- Claim C9: every extracted status code is exactly three decimal digits, so the integer parse inside the classifier cannot fail on it. -/
theorem C9_extracted_code_three_digits (command stdout stderr c : List Char)
    (h : extract_http_response_code command stdout stderr = some c) :
    c.length = 3 ∧ c.all isDigitChar = true ∧
      is_valid_http_code (some c) ≠ none := by
  have hsearch : searchHTTP stderr = some c ∨ searchHTTP stdout = some c := by
    unfold extract_http_response_code at h
    split at h
    · split at h
      · rename_i code hs
        injection h with h2
        subst h2
        left; exact hs
      · right; exact h
    · cases h
  have hcs : c.length = 3 ∧ c.all isDigitChar = true := by
    rcases hsearch with hs | hs
    · exact ⟨(searchHTTP_sound _ _ hs).1, (searchHTTP_sound _ _ hs).2.1⟩
    · exact ⟨(searchHTTP_sound _ _ hs).1, (searchHTTP_sound _ _ hs).2.1⟩
  refine ⟨hcs.1, hcs.2, ?_⟩
  have hcne : c ≠ [] := by
    intro hc
    rw [hc] at hcs
    simp at hcs
  simp only [is_valid_http_code, pyInt_digits c hcne hcs.2]
  split
  · simp
  · split <;> simp

/-- Claim C4: extraction returns absent unless the stripped command starts with curl; it searches stderr before stdout; a successful search returns a three-digit group preceded by the literal HTTP with no intervening newline, a failed search means no such occurrence exists, and absent results when neither stream matches.  The returned group is the FIRST such group: the fifth conjunct exhibits a decomposition of the stream around the returned group whose prefix before HTTP is no longer than that of any valid decomposition, and, at equal prefix length, whose gap before the digit group is no longer either; together with soundness this pins the returned group to the leftmost match start and the earliest digit triple within it, uniquely determining it among all matching groups.  The 404 example holds. -/
theorem C4_extract_status_code :
    (∀ command stdout stderr : List Char,
       curlChars.isPrefixOf (pyStrip command) = false →
       extract_http_response_code command stdout stderr = none) ∧
    (∀ (command stdout stderr c : List Char),
       curlChars.isPrefixOf (pyStrip command) = true →
       searchHTTP stderr = some c →
       extract_http_response_code command stdout stderr = some c) ∧
    (∀ command stdout stderr : List Char,
       curlChars.isPrefixOf (pyStrip command) = true →
       searchHTTP stderr = none →
       extract_http_response_code command stdout stderr = searchHTTP stdout) ∧
    (∀ s c : List Char, searchHTTP s = some c →
       c.length = 3 ∧ c.all isDigitChar = true ∧
       ∃ pre mid post, s = pre ++ httpChars ++ mid ++ c ++ post ∧
         ∀ ch ∈ mid, ch ≠ '\n') ∧
    (∀ (s c : List Char), searchHTTP s = some c →
       ∃ pre mid post, s = pre ++ httpChars ++ mid ++ c ++ post ∧
         (∀ ch ∈ mid, ch ≠ '\n') ∧
         ∀ (pre2 mid2 c2 post2 : List Char),
           s = pre2 ++ httpChars ++ mid2 ++ c2 ++ post2 →
           (∀ ch ∈ mid2, ch ≠ '\n') → c2.length = 3 →
           c2.all isDigitChar = true →
           pre.length ≤ pre2.length ∧
           (pre.length = pre2.length → mid.length ≤ mid2.length)) ∧
    (∀ s : List Char, searchHTTP s = none →
       ∀ pre mid c post : List Char,
         s = pre ++ httpChars ++ mid ++ c ++ post →
         (∀ ch ∈ mid, ch ≠ '\n') → c.length = 3 →
         c.all isDigitChar = true → False) ∧
    extract_http_response_code ( "curl -i http://x".toList) []
      ( "HTTP/1.1 404 Not Found".toList) = some ( "404".toList) := by
  refine ⟨?_, ?_, ?_, searchHTTP_sound, searchHTTP_min, searchHTTP_none, by decide⟩
  · intro command stdout stderr hc
    unfold extract_http_response_code
    rw [if_neg (by simp [hc])]
  · intro command stdout stderr c hc hs
    unfold extract_http_response_code
    rw [if_pos hc, hs]
  · intro command stdout stderr hc hs
    unfold extract_http_response_code
    rw [if_pos hc, hs]

/-- Claim C3 as stated is false: for a fetch command whose stdout has no blank line, the function returns the output stripped of surrounding whitespace, not unchanged. -/
theorem C3_counterexample :
    extract_response_body ( "curl http://x".toList) ( " A".toList) [] =
      ( "A".toList) ∧
    ( "A".toList) ≠ ( " A".toList) := by decide

/-- Claim C3 (amended): non-fetch commands get their output back unchanged; for fetch commands, output with no blank line comes back trimmed; when a first blank line exists, everything after it is returned trimmed, except that a first blank line in final position returns the output unchanged; the header example yields Hello. -/
theorem C3_amended_extract_body :
    (∀ command stdout stderr : List Char,
       curlChars.isPrefixOf (pyStrip command) = false →
       extract_response_body command stdout stderr = stdout) ∧
    (∀ command stdout stderr : List Char,
       curlChars.isPrefixOf (pyStrip command) = true →
       (∀ l ∈ splitNl stdout, pyStrip l ≠ []) →
       extract_response_body command stdout stderr = pyStrip stdout) ∧
    (∀ (command stdout stderr : List Char) (pre : List (List Char))
       (bl : List Char) (post : List (List Char)),
       curlChars.isPrefixOf (pyStrip command) = true →
       splitNl stdout = pre ++ bl :: post →
       (∀ l ∈ pre, pyStrip l ≠ []) → pyStrip bl = [] →
       extract_response_body command stdout stderr =
         (if post = [] then stdout else pyStrip (joinNl post))) ∧
    extract_response_body ( "curl -i http://x".toList)
      ( "HTTP/1.1 200 OK\nContent-Type: text/plain\n\nHello".toList) [] =
      ( "Hello".toList) := by
  refine ⟨?_, ?_, ?_, by decide⟩
  · intro command stdout stderr hc
    simp only [extract_response_body]
    rw [if_neg (by simp [hc])]
  · intro command stdout stderr hc hall
    simp only [extract_response_body]
    rw [if_pos hc]
    rw [findBodyStart_none (splitNl stdout) 0 hall]
    rw [if_pos (List.length_pos.mpr (splitNl_ne_nil stdout))]
    rw [List.drop_zero, joinNl_splitNl]
  · intro command stdout stderr pre bl post hc hsplit hpre hbl
    simp only [extract_response_body]
    rw [if_pos hc, hsplit]
    rw [findBodyStart_found pre bl post 0 hpre hbl]
    simp only [Nat.zero_add]
    cases post with
    | nil =>
      rw [if_neg (by simp [List.length_append])]
      rw [if_pos rfl]
    | cons q qs =>
      rw [if_pos (by simp [List.length_append])]
      rw [drop_after]
      rw [if_neg (by simp)]

/-- Witness for C1 at the concrete five-identifier run. -/
theorem C1_witness :
    (run_batch_execution true false exRunner1 exTemplate exIds5).summaryTotal =
      some 5 :=
  (C1_amended_summary_totals true false exRunner1 exTemplate exIds5 (by decide)).1

/-- Witness for C2 at a concrete aborting identifier. -/
theorem C2_witness :
    processIds true false exRunner1 exTemplate 1 ([ "b".toList]) 1 initState =
      { successful := 0, failed := 1, executions := [ "curl b".toList],
        delays := 0, stopped := true } :=
  (C2_stop_on_http_error.1 exRunner1 exTemplate ( "b".toList) [] 1 1 initState
    (by decide)).trans (by decide)

/-- Witness for C3 at a concrete non-fetch command. -/
theorem C3_witness :
    extract_response_body ( "echo hi".toList) ( " raw out ".toList) [] =
      ( " raw out ".toList) :=
  C3_amended_extract_body.1 ( "echo hi".toList) ( " raw out ".toList) [] (by decide)

/-- Witness for C4: stderr is searched first even when stdout also matches. -/
theorem C4_witness :
    extract_http_response_code ( "curl x".toList) ( "HTTP/1.1 200 OK".toList)
      ( "HTTP/2 503".toList) = some ( "503".toList) :=
  C4_extract_status_code.2.1 ( "curl x".toList) ( "HTTP/1.1 200 OK".toList)
    ( "HTTP/2 503".toList) ( "503".toList) (by decide) (by decide)

/-- Witness for C5 at code 404. -/
theorem C5_witness :
    pyInt ( "404".toList) = some 404 ∧
    is_valid_http_code (some ( "404".toList)) = some false :=
  ⟨by decide,
    (C5_classify_status.2 ( "404".toList) 404 (by decide)).2.1 (by decide)⟩

/-- Witness for C6 at a one-identifier run. -/
theorem C6_witness :
    (run_batch_execution false false exRunner1 exTemplate
        ([ "a".toList])).delays + 1 =
      (run_batch_execution false false exRunner1 exTemplate
        ([ "a".toList])).successful +
      (run_batch_execution false false exRunner1 exTemplate
        ([ "a".toList])).failed :=
  C6_delay_invocations.2.2 false false exRunner1 exTemplate ([ "a".toList]) (by decide)

/-- Witness for C9 at the 404 example. -/
theorem C9_witness :
    ( "404".toList).length = 3 ∧ ( "404".toList).all isDigitChar = true ∧
      is_valid_http_code (some ( "404".toList)) ≠ none :=
  C9_extracted_code_three_digits ( "curl -i http://x".toList) [] ( "HTTP/1.1 404 Not Found".toList)
    ( "404".toList) (by decide)

/-- Witness for C10 at a one-identifier run. -/
theorem C10_witness :
    (run_batch_execution false false exRunner1 exTemplate
        ([ "a".toList])).successful +
      (run_batch_execution false false exRunner1 exTemplate
        ([ "a".toList])).failed = 1 :=
  C10_counter_invariant.2.1 false false exRunner1 exTemplate ([ "a".toList]) (by decide)
